import Mathlib

/-!
Verification of the financial-news collection and preprocessing pipeline.

This file gives a shallow embedding, in Lean 4, of the core logic of the
repository's six Python modules, and proves (or refutes) the behavioural
claims made about them.

Conventions of the embedding:
* Python strings are modelled as `List Char` (`Str`); `None` / JSON `null`
  values are modelled with `Option`.
* Regular-expression passes (`re.sub`, `re.findall`) are modelled as
  explicit left-to-right scanners implementing the same leftmost,
  greedy/non-greedy semantics as the concrete patterns in the source.
  Character classes are modelled over their ASCII fragments: Python's
  `\s` is modelled as space, tab, newline, carriage return, vertical tab
  and form feed, `\d` as the digits 0-9, and `str.lower` as the ASCII
  lowercase map.
* External collaborators (HTTP client, feed parser, HTML-to-text
  extraction, CSV reader/writer) are modelled at their interface
  boundary: their possible outcomes (success value / exception /
  status code) are inputs to the embedded functions.
-/

/-- Python strings are modelled as lists of characters. -/
abbrev Str := List Char

/-- ASCII fragment of Python's regex class `\s` and of `str.strip` /
`str.split` whitespace: space, tab, newline, carriage return, vertical
tab, form feed. -/
def isSpaceCh (c : Char) : Bool :=
  c = ' ' || c = '\t' || c = '\n' || c = '\r' || c = '\x0b' || c = '\x0c'

/-- ASCII fragment of Python's regex class `\d`. -/
def isDigitCh (c : Char) : Bool :=
  48 ≤ c.toNat && c.toNat ≤ 57

/-- ASCII fragment of Python's `str.lower`: map code points 65-90 (A-Z)
to 97-122 (a-z), leave everything else unchanged. -/
def toLowerC (c : Char) : Char :=
  if 65 ≤ c.toNat ∧ c.toNat ≤ 90 then Char.ofNat (c.toNat + 32) else c

/-- `text.lower()` applied to a whole string. -/
def lowerL (l : Str) : Str := l.map toLowerC

/-!
### `clean_text` (src/simple_preprocessing.py lines 11-31)

The function is the composition of five `re.sub` passes after
lowercasing:
1. `re.sub(r'<.*?>', '', text)` — non-greedy, `.` does not match
   newline, so a match is `<`, then characters other than `>` and
   newline, then the first `>`.
2. `re.sub(r'http\S+|www\S+', '', text)` — at each position the engine
   first tries `http` followed by a maximal non-empty run of
   non-whitespace, then `www` likewise.
3. `re.sub(r'[^a-zA-Z0-9\s\.\,\!\?\-\$\%]', '', text)` — keep only the
   allow-set.
4. `re.sub(r'\s+', ' ', text)` — collapse whitespace runs to one space.
5. `.strip()`.
-/

/-- Scan for the `>` closing a `<.*?>` match: return the remainder after
the first `>`, or `none` if a newline or the end of input intervenes. -/
def findClose : List Char → Option (List Char)
  | [] => none
  | c :: cs => if c = '>' then some cs else if c = '\n' then none else findClose cs

theorem length_dropWhile_le (p : Char → Bool) (l : List Char) :
    (l.dropWhile p).length ≤ l.length :=
  (List.dropWhile_suffix p).sublist.length_le

theorem findClose_length {l rest : List Char} (h : findClose l = some rest) :
    rest.length < l.length := by
  induction l with
  | nil => simp [findClose] at h
  | cons c cs ih =>
    simp only [findClose] at h
    split at h
    · cases h; simp
    · split at h
      · cases h
      · have := ih h; simp; omega

/-- `re.sub(r'<.*?>', '', text)`: left-to-right scan removing each
non-greedy tag match. -/
def stripHtml : List Char → List Char
  | [] => []
  | c :: cs =>
    if c = '<' then
      match h : findClose cs with
      | some rest => stripHtml rest
      | none => c :: stripHtml cs
    else c :: stripHtml cs
termination_by l => l.length
decreasing_by
  · have := findClose_length h; simp; omega
  · simp
  · simp

/-- `re.sub(r'http\S+|www\S+', '', text)`: left-to-right scan; at each
position first try `http` followed by at least one non-whitespace
character (consuming the maximal run), then `www` likewise; otherwise
emit one character and continue. -/
def stripUrl : List Char → List Char
  | 'h' :: 't' :: 't' :: 'p' :: c :: cs =>
    if isSpaceCh c then 'h' :: stripUrl ('t' :: 't' :: 'p' :: c :: cs)
    else stripUrl (cs.dropWhile (fun d => !isSpaceCh d))
  | 'w' :: 'w' :: 'w' :: c :: cs =>
    if isSpaceCh c then 'w' :: stripUrl ('w' :: 'w' :: c :: cs)
    else stripUrl (cs.dropWhile (fun d => !isSpaceCh d))
  | c :: cs => c :: stripUrl cs
  | [] => []
termination_by l => l.length
decreasing_by
  all_goals simp
  all_goals have := length_dropWhile_le (fun d => !isSpaceCh d) cs
  all_goals omega

/-- The allow-set of `re.sub(r'[^a-zA-Z0-9\s\.\,\!\?\-\$\%]', '', text)`. -/
def allowedCh (c : Char) : Bool :=
  (97 ≤ c.toNat && c.toNat ≤ 122) || (65 ≤ c.toNat && c.toNat ≤ 90) ||
  (48 ≤ c.toNat && c.toNat ≤ 57) || isSpaceCh c ||
  c = '.' || c = ',' || c = '!' || c = '?' || c = '-' || c = '$' || c = '%'

/-- `re.sub(r'\s+', ' ', text)`: each maximal whitespace run becomes a
single space. -/
def collapseWs : List Char → List Char
  | [] => []
  | c :: cs =>
    if isSpaceCh c then ' ' :: collapseWs (cs.dropWhile isSpaceCh)
    else c :: collapseWs cs
termination_by l => l.length
decreasing_by
  · simp
    have := length_dropWhile_le isSpaceCh cs
    omega
  · simp

/-- `text.strip()`: drop whitespace from both ends. -/
def stripEnds (l : List Char) : List Char :=
  ((l.dropWhile isSpaceCh).reverse.dropWhile isSpaceCh).reverse

/-- `clean_text` on an actual string (src/simple_preprocessing.py
lines 11-31), as the composition of the five passes after lowercasing. -/
def clean_text (s : Str) : Str :=
  stripEnds (collapseWs (List.filter allowedCh (stripUrl (stripHtml (lowerL s)))))

/-- A Python value passed to `clean_text`: either a string or a
non-string value (caught by the `isinstance` guard). -/
inductive PyVal where
  | str (s : Str)
  | nonString
deriving DecidableEq

/-- `clean_text` including the `isinstance(text, str)` guard: a
non-string input yields the empty string. -/
def clean_text_py : PyVal → Str
  | .str s => clean_text s
  | .nonString => []

/-!
### Financial-signal extraction (src/simple_preprocessing.py lines 55-70)
-/

/-- `str.split()` with no argument: the list of maximal non-whitespace
runs. -/
def splitWs : List Char → List Str
  | [] => []
  | c :: cs =>
    if isSpaceCh c then splitWs cs
    else (c :: cs.takeWhile (fun d => !isSpaceCh d)) ::
      splitWs (cs.dropWhile (fun d => !isSpaceCh d))
termination_by l => l.length
decreasing_by
  · simp
  · simp
    have := length_dropWhile_le (fun d => !isSpaceCh d) cs
    omega

/-- `len(cleaned.split())`. -/
def word_count (s : Str) : Nat := (splitWs s).length

/-- Whether `pat` is a prefix of `s` (Boolean, by character equality). -/
def startsWithL : List Char → List Char → Bool
  | [], _ => true
  | _ :: _, [] => false
  | p :: ps, c :: cs => p = c && startsWithL ps cs

/-- Python's `pat in s` substring test. -/
def containsL : List Char → List Char → Bool
  | [], pat => startsWithL pat []
  | c :: cs, pat => startsWithL pat (c :: cs) || containsL cs pat

/-- The fixed finance vocabulary of `has_financial_terms`
(src/simple_preprocessing.py lines 63-68). -/
def financial_terms : List Str :=
  ["stock", "market", "share", "invest", "trading", "bond",
   "etf", "dividend", "earnings", "revenue", "profit", "loss",
   "ceo", "company", "bank", "economy", "fed", "interest", "rate",
   "inflation", "gdp", "ipo", "merger", "acquisition"].map String.toList

/-- `has_financial_terms(text)`: some vocabulary term occurs in
`text.lower()` (src/simple_preprocessing.py lines 61-70). -/
def has_financial_terms (text : Str) : Bool :=
  financial_terms.any (fun term => containsL (lowerL text) term)

/-- The optional decimal part `(?:\.\d+)?` of the money pattern: consume
`.` plus a maximal non-empty digit run if present, else consume
nothing. -/
def decPart (l : List Char) : List Char :=
  match l with
  | '.' :: c :: cs => if isDigitCh c then cs.dropWhile isDigitCh else l
  | _ => l

/-- The magnitude alternation `(?:million|billion|trillion|M|B|T)`:
consume the first alternative that is a prefix, in the pattern's
order. -/
def magWord (l : List Char) : Option (List Char) :=
  if startsWithL "million".toList l then some (l.drop 7)
  else if startsWithL "billion".toList l then some (l.drop 7)
  else if startsWithL "trillion".toList l then some (l.drop 8)
  else if startsWithL "M".toList l then some (l.drop 1)
  else if startsWithL "B".toList l then some (l.drop 1)
  else if startsWithL "T".toList l then some (l.drop 1)
  else none

/-- The optional magnitude group `(?:\s?(?:million|...|T))?`: greedily
try one whitespace character plus a magnitude word, then a magnitude
word alone, else consume nothing. -/
def magPart (l : List Char) : List Char :=
  match l with
  | c :: cs =>
    if isSpaceCh c then
      match magWord cs with
      | some r => r
      | none => c :: cs
    else
      match magWord (c :: cs) with
      | some r => r
      | none => c :: cs
  | [] => []

/-- A money match continuing after a `$`: `\d+` (maximal, non-empty),
then the optional decimal part, then the optional magnitude part.
Returns the remainder after the match, or `none` if no digit follows
the `$`. -/
def moneyTail (l : List Char) : Option (List Char) :=
  match l with
  | c :: cs =>
    if isDigitCh c then some (magPart (decPart (cs.dropWhile isDigitCh)))
    else none
  | [] => none

theorem decPart_length (l : List Char) : (decPart l).length ≤ l.length := by
  unfold decPart
  split
  · split
    · rename_i c cs _
      have := length_dropWhile_le isDigitCh cs
      simp; omega
    · simp
  · simp

theorem magWord_length {l r : List Char} (h : magWord l = some r) :
    r.length ≤ l.length := by
  unfold magWord at h
  repeat' split at h
  all_goals cases h
  all_goals simp [List.length_drop]

theorem magPart_length (l : List Char) : (magPart l).length ≤ l.length := by
  unfold magPart
  split
  · rename_i c cs
    split
    · split
      · rename_i h
        have := magWord_length h
        simp; omega
      · simp
    · split
      · rename_i h
        have := magWord_length h
        omega
      · simp
  · simp

theorem moneyTail_length {l r : List Char} (h : moneyTail l = some r) :
    r.length ≤ l.length := by
  unfold moneyTail at h
  split at h
  · split at h
    · rename_i c cs _
      cases h
      have h1 := magPart_length (decPart (cs.dropWhile isDigitCh))
      have h2 := decPart_length (cs.dropWhile isDigitCh)
      have h3 := length_dropWhile_le isDigitCh cs
      simp; omega
    · cases h
  · cases h

/-- `len(re.findall(r'\$\d+(?:\.\d+)?(?:\s?(?:million|billion|trillion|M|B|T))?', text))`:
count of leftmost non-overlapping money matches. -/
def countMoney : List Char → Nat
  | [] => 0
  | '$' :: cs =>
    match h : moneyTail cs with
    | some rest => 1 + countMoney rest
    | none => countMoney cs
  | _ :: cs => countMoney cs
termination_by l => l.length
decreasing_by
  · have := moneyTail_length h; simp; omega
  · simp
  · simp

/-- Require a literal `%` next (the backtracking fallback of the
percentage pattern when the decimal part is dropped). -/
def pctNoDec : List Char → Option (List Char)
  | '%' :: r => some r
  | _ => none

/-- A percentage match starting at a digit: `\d+` maximal, then either
`.\d+` followed by `%`, or (backtracking the optional group) `%`
directly after the integer digits. Returns the remainder after the
match. -/
def pctTail (l : List Char) : Option (List Char) :=
  match l with
  | c :: cs =>
    if isDigitCh c then
      match h : cs.dropWhile isDigitCh with
      | '.' :: d :: ds =>
        if isDigitCh d then
          match ds.dropWhile isDigitCh with
          | '%' :: r => some r
          | _ => pctNoDec (cs.dropWhile isDigitCh)
        else pctNoDec (cs.dropWhile isDigitCh)
      | _ => pctNoDec (cs.dropWhile isDigitCh)
    else none
  | [] => none

theorem pctNoDec_length {l r : List Char} (h : pctNoDec l = some r) :
    r.length < l.length := by
  unfold pctNoDec at h
  split at h
  · cases h; simp
  · cases h

theorem pctTail_length {l r : List Char} (h : pctTail l = some r) :
    r.length < l.length := by
  unfold pctTail at h
  split at h
  · rename_i c cs
    split at h
    · split at h
      · rename_i d ds heq
        have hlen1 : (cs.dropWhile isDigitCh).length ≤ cs.length :=
          length_dropWhile_le isDigitCh cs
        have hlen2 := congrArg List.length heq
        simp at hlen2
        split at h
        · split at h
          · rename_i heq2
            cases h
            have hlen3 : (ds.dropWhile isDigitCh).length ≤ ds.length :=
              length_dropWhile_le isDigitCh ds
            have hlen4 := congrArg List.length heq2
            simp at hlen4
            simp
            omega
          · have := pctNoDec_length h
            simp
            omega
        · have := pctNoDec_length h
          simp
          omega
      · have := pctNoDec_length h
        have := length_dropWhile_le isDigitCh cs
        simp
        omega
    · cases h
  · cases h

/-- `len(re.findall(r'\d+(?:\.\d+)?%', text))`: count of leftmost
non-overlapping percentage matches. -/
def countPct : List Char → Nat
  | [] => 0
  | c :: cs =>
    if isDigitCh c then
      match h : pctTail (c :: cs) with
      | some rest => 1 + countPct rest
      | none => countPct cs
    else countPct cs
termination_by l => l.length
decreasing_by
  · have := pctTail_length h; simpa using this
  · simp
  · simp

/-- `extract_financial_indicators(text)` (src/simple_preprocessing.py
lines 55-59): the money pattern is counted on `text.lower()`, the
percentage pattern on `text` itself. -/
def extract_financial_indicators (text : Str) : Nat × Nat :=
  (countMoney (lowerL text), countPct text)

/-!
### `process_file` (src/simple_preprocessing.py lines 72-164)

A row of the tabular dataset.  Cells of the four possible source-text
columns and of `cleaned_text` are `Option Str`: `none` models a missing
column or a NaN cell (the code treats both alike through
`pd.notna` / `row.get`).  The derived numeric/boolean columns carry the
values produced by `add_missing_columns` defaults or by earlier runs.
-/

structure Row where
  text : Option Str
  content : Option Str
  description : Option Str
  summary : Option Str
  cleaned_text : Option Str
  word_count : Nat
  char_count : Nat
  has_financial_terms : Bool
  money_mentions : Nat
  percentage_mentions : Nat
  processing_date : Str
  processed_version : Str
deriving DecidableEq

/-- First non-`none` entry of a list of optional cells. -/
def firstSome : List (Option Str) → Option Str
  | [] => none
  | some t :: _ => some t
  | none :: rest => firstSome rest

/-- The source-text selection of the per-row loop
(src/simple_preprocessing.py lines 102-107): the first of
`text`, `content`, `description`, `summary` whose cell is present and
not NaN. -/
def candidate_text (r : Row) : Option Str :=
  firstSome [r.text, r.content, r.description, r.summary]
/-- The `let cleaned` of the per-row loop
(src/simple_preprocessing.py lines 112-118): recompute `cleaned_text`
from the selected source text only when the stored cell is NaN or the
empty string, else keep the stored value. -/
def cleanedVal (prev : Option Str) (t : Str) : Str :=
  match prev with
  | none => clean_text t
  | some c => if c = [] then clean_text t else c

/-- One row of `process_file`'s per-row loop
(src/simple_preprocessing.py lines 99-147) plus the unconditional date
stamp of line 150.  The `if not text: continue` guard of line 109 is the
`t = []` branch.  The code's conditional cell writes
(`if df.at[idx, col] != v: df.at[idx, col] = v`) are modelled as plain
writes: they leave the same final cell value and differ only in the
change counter used for console reporting.  After step 1 the
`cleaned_text` cell always holds a string, so the `pd.notna(cleaned)`
guard of line 119 is true whenever this branch is reached. -/
def process_row (today : Str) (r : Row) : Row :=
  match candidate_text r with
  | none => { r with processing_date := today }
  | some t =>
    if t = [] then { r with processing_date := today }
    else
      let cleaned := cleanedVal r.cleaned_text t
      { r with
        cleaned_text := some cleaned,
        word_count := word_count cleaned,
        char_count := cleaned.length,
        has_financial_terms := has_financial_terms cleaned,
        money_mentions := (extract_financial_indicators cleaned).1,
        percentage_mentions := (extract_financial_indicators cleaned).2,
        processing_date := today }

/-- String-cell normalization performed by a CSV round trip through
`pd.read_csv`: an empty cell (in particular the empty string written by
`df.to_csv`) reads back as NaN.  Non-empty strings and the numeric,
boolean and date cells round-trip to equal values. -/
def normField : Option Str → Option Str
  | some [] => none
  | v => v

/-- Apply the CSV-load normalization to the string-valued cells of a
row. -/
def load_row (r : Row) : Row :=
  { r with
    text := normField r.text,
    content := normField r.content,
    description := normField r.description,
    summary := normField r.summary,
    cleaned_text := normField r.cleaned_text }

/-- The whole-file enrichment pass of `process_file`: every row goes
through the per-row loop, with the same processing date stamped on each
row. -/
def process_file (today : Str) (rows : List Row) : List Row :=
  rows.map (process_row today)

/-- The five derived fields named by the idempotence property. -/
def derivedOf (r : Row) : Nat × Nat × Bool × Nat × Nat :=
  (r.word_count, r.char_count, r.has_financial_terms,
   r.money_mentions, r.percentage_mentions)

theorem normField_idem (v : Option Str) : normField (normField v) = normField v := by
  match v with
  | none => rfl
  | some [] => rfl
  | some (c :: cs) => rfl

theorem normField_ne_some_nil (v : Option Str) : normField v ≠ some [] := by
  match v with
  | none => simp [normField]
  | some [] => simp [normField]
  | some (c :: cs) => simp [normField]

theorem normField_some_ne {c : Str} (h : c ≠ []) : normField (some c) = some c := by
  match c with
  | [] => exact absurd rfl h
  | _ :: _ => rfl

theorem load_row_normalized (r : Row) :
    (load_row r).text ≠ some [] ∧ (load_row r).content ≠ some [] ∧
    (load_row r).description ≠ some [] ∧ (load_row r).summary ≠ some [] ∧
    (load_row r).cleaned_text ≠ some [] := by
  simp only [load_row]
  exact ⟨normField_ne_some_nil _, normField_ne_some_nil _, normField_ne_some_nil _,
    normField_ne_some_nil _, normField_ne_some_nil _⟩

theorem firstSome_ne_nil : ∀ (opts : List (Option Str)),
    (∀ o ∈ opts, o ≠ some []) → ∀ t, firstSome opts = some t → t ≠ [] := by
  intro opts
  induction opts with
  | nil =>
    intro _ t h
    simp [firstSome] at h
  | cons o rest ih =>
    intro hne t h
    match o with
    | some u =>
      simp only [firstSome] at h
      cases h
      intro hc
      exact (hne (some t) (by simp)) (by rw [hc])
    | none =>
      simp only [firstSome] at h
      exact ih (fun o ho => hne o (List.mem_cons_of_mem _ ho)) t h

theorem process_row_sources (d : Str) (r : Row) :
    (process_row d r).text = r.text ∧ (process_row d r).content = r.content ∧
    (process_row d r).description = r.description ∧
    (process_row d r).summary = r.summary := by
  unfold process_row
  split
  · simp
  · split
    · simp
    · simp


theorem load_row_text (r : Row) : (load_row r).text = normField r.text := rfl

theorem load_row_content (r : Row) : (load_row r).content = normField r.content := rfl

theorem load_row_descr (r : Row) : (load_row r).description = normField r.description := rfl

theorem load_row_summ (r : Row) : (load_row r).summary = normField r.summary := rfl

theorem load_row_cleaned (r : Row) : (load_row r).cleaned_text = normField r.cleaned_text := rfl

theorem candidate_load_stable (d : Str) (r : Row) :
    candidate_text (load_row (process_row d (load_row r))) =
    candidate_text (load_row r) := by
  obtain ⟨h1, h2, h3, h4⟩ := process_row_sources d (load_row r)
  unfold candidate_text
  simp only [load_row_text, load_row_content, load_row_descr, load_row_summ,
    h1, h2, h3, h4, normField_idem]

theorem process_row_eq_none (d : Str) (s : Row) (h : candidate_text s = none) :
    process_row d s = { s with processing_date := d } := by
  unfold process_row
  rw [h]

theorem process_row_eq_some (d : Str) (s : Row) (t : Str) (h : candidate_text s = some t)
    (htne : t ≠ []) :
    process_row d s =
      { s with
        cleaned_text := some (cleanedVal s.cleaned_text t),
        word_count := word_count (cleanedVal s.cleaned_text t),
        char_count := (cleanedVal s.cleaned_text t).length,
        has_financial_terms := has_financial_terms (cleanedVal s.cleaned_text t),
        money_mentions := (extract_financial_indicators (cleanedVal s.cleaned_text t)).1,
        percentage_mentions := (extract_financial_indicators (cleanedVal s.cleaned_text t)).2,
        processing_date := d } := by
  unfold process_row
  rw [h]
  simp [htne]

/-- Re-running the `let cleaned` computation on the value persisted and
reloaded after a first run gives back the first run's value. -/
theorem cleanedVal_renorm (prev : Option Str) (t : Str) (hprev : prev ≠ some []) :
    cleanedVal (normField (some (cleanedVal prev t))) t = cleanedVal prev t := by
  cases prev with
  | none =>
    cases hc : clean_text t with
    | nil => simp [cleanedVal, normField, hc]
    | cons a b => simp [cleanedVal, normField, hc]
  | some c =>
    have hcne : c ≠ [] := fun h => hprev (by rw [h])
    simp [cleanedVal, hcne, normField_some_ne hcne]

/-- Per-row idempotence: a second enrichment run (with the CSV save and
reload in between) recomputes exactly the same five derived values. -/
theorem process_row_idem (d1 d2 : Str) (r : Row) :
    derivedOf (process_row d2 (load_row (process_row d1 (load_row r)))) =
    derivedOf (process_row d1 (load_row r)) := by
  have hnorm := load_row_normalized r
  have hstable := candidate_load_stable d1 r
  cases ht : candidate_text (load_row r) with
  | none =>
    rw [ht] at hstable
    rw [process_row_eq_none d1 _ ht] at hstable ⊢
    rw [process_row_eq_none d2 _ hstable]
    simp [derivedOf, load_row]
  | some t =>
    have htne : t ≠ [] := by
      refine firstSome_ne_nil [(load_row r).text, (load_row r).content,
        (load_row r).description, (load_row r).summary] ?_ t ht
      intro o ho
      simp only [List.mem_cons, List.not_mem_nil, or_false] at ho
      rcases ho with rfl | rfl | rfl | rfl
      · exact hnorm.1
      · exact hnorm.2.1
      · exact hnorm.2.2.1
      · exact hnorm.2.2.2.1
    rw [ht] at hstable
    rw [process_row_eq_some d1 _ t ht htne] at hstable ⊢
    rw [process_row_eq_some d2 _ t hstable htne]
    simp only [derivedOf, load_row_cleaned]
    rw [cleanedVal_renorm (normField r.cleaned_text) t (normField_ne_some_nil _)]

/-- C1.  For every dataset file that loads successfully, running the
incremental enrichment pass (`process_file`) twice in succession with no
change to the source text columns yields identical values for
`word_count`, `char_count`, `has_financial_terms`, `money_mentions` and
`percentage_mentions` after the second run as after the first; only
`processing_date` may differ.  Each run loads the persisted rows
(`load_row`, the CSV round trip) and enriches every row; the dates `d1`
and `d2` of the two runs are arbitrary. -/
theorem process_file_idempotent_derived (rows : List Row) (d1 d2 : Str) :
    (process_file d2 ((process_file d1 (rows.map load_row)).map load_row)).map derivedOf =
    (process_file d1 (rows.map load_row)).map derivedOf := by
  unfold process_file
  induction rows with
  | nil => simp
  | cons r rest ih =>
    simp only [List.map_cons, List.cons.injEq]
    exact ⟨process_row_idem d1 d2 r, ih⟩

/-!
### Properties of `clean_text`

`clean_text` is total by construction and maps the empty string to
itself.  It is NOT idempotent in general: the character filter (pass 3)
runs after URL removal (pass 2) and can therefore create a fresh
`http...` substring that only a second run would remove.  Idempotence
does hold for every input whose cleaned form is a fixed point of the
URL pass.  The lemmas below establish the shape of a cleaned string and
that each pass fixes a string of that shape.
-/

theorem toLowerC_idem (c : Char) : toLowerC (toLowerC c) = toLowerC c := by
  by_cases h : 65 ≤ c.toNat ∧ c.toNat ≤ 90
  · have h1 : toLowerC c = Char.ofNat (c.toNat + 32) := by
      unfold toLowerC
      rw [if_pos h]
    have hbound : ∀ n, n < 91 → 65 ≤ n →
        ¬(65 ≤ (Char.ofNat (n + 32)).toNat ∧ (Char.ofNat (n + 32)).toNat ≤ 90) := by decide
    rw [h1]
    unfold toLowerC
    rw [if_neg (hbound c.toNat (by omega) h.1)]
  · have h1 : toLowerC c = c := by
      unfold toLowerC
      rw [if_neg h]
    rw [h1, h1]

theorem mem_findClose {l rest : List Char} (h : findClose l = some rest) :
    ∀ c ∈ rest, c ∈ l := by
  induction l with
  | nil => simp [findClose] at h
  | cons a as ih =>
    simp only [findClose] at h
    split at h
    · cases h
      intro c hc
      exact List.mem_cons_of_mem _ hc
    · split at h
      · cases h
      · intro c hc
        exact List.mem_cons_of_mem _ (ih h c hc)

theorem mem_stripHtml : ∀ (l : List Char), ∀ c ∈ stripHtml l, c ∈ l := by
  intro l
  induction l using stripHtml.induct with
  | case1 => simp [stripHtml]
  | case2 cs rest hfc ih =>
    intro a ha
    rw [stripHtml, if_pos rfl] at ha
    split at ha
    · rename_i rest2 hfc2
      rw [hfc] at hfc2
      cases hfc2
      exact List.mem_cons_of_mem _ (mem_findClose hfc a (ih a ha))
    · rename_i hfc2
      rw [hfc] at hfc2
      cases hfc2
  | case3 cs hfc ih =>
    intro a ha
    rw [stripHtml, if_pos rfl] at ha
    split at ha
    · rename_i rest2 hfc2
      rw [hfc] at hfc2
      cases hfc2
    · simp only [List.mem_cons] at ha
      rcases ha with h | h
      · simp [h]
      · exact List.mem_cons_of_mem _ (ih a h)
  | case4 c cs hne ih =>
    intro a ha
    rw [stripHtml] at ha
    rw [if_neg hne] at ha
    simp only [List.mem_cons] at ha
    rcases ha with h | h
    · simp [h]
    · exact List.mem_cons_of_mem _ (ih a h)

/-- Unfolding equation for `stripUrl` at a position where neither URL
alternative can start. -/
theorem stripUrl_cons_eq {c : Char} {cs : List Char}
    (h1 : ∀ (c1 : Char) (cs1 : List Char), c = 'h' → cs = 't' :: 't' :: 'p' :: c1 :: cs1 → False)
    (h2 : ∀ (c1 : Char) (cs1 : List Char), c = 'w' → cs = 'w' :: 'w' :: c1 :: cs1 → False) :
    stripUrl (c :: cs) = c :: stripUrl cs := by
  rw [stripUrl.eq_def]
  split
  · rename_i heq
    injection heq with hc hcs
    exact (h1 _ _ hc hcs).elim
  · rename_i heq
    injection heq with hc hcs
    exact (h2 _ _ hc hcs).elim
  · rename_i heq
    injection heq with hc hcs
    subst hc
    subst hcs
    rfl
  · rename_i heq
    cases heq

theorem mem_stripUrl : ∀ (l : List Char), ∀ c ∈ stripUrl l, c ∈ l := by
  intro l
  induction l using stripUrl.induct with
  | case1 c cs hsp ih =>
    intro a ha
    rw [stripUrl, if_pos hsp] at ha
    simp only [List.mem_cons] at ha ⊢
    rcases ha with h | h
    · tauto
    · have := ih a (by simpa using h)
      simp at this
      tauto
  | case2 c cs hsp ih =>
    intro a ha
    rw [stripUrl, if_neg hsp] at ha
    have := ih a ha
    have h2 := (List.dropWhile_suffix (fun d => !isSpaceCh d)).sublist.subset this
    simp only [List.mem_cons]
    tauto
  | case3 c cs hsp ih =>
    intro a ha
    rw [stripUrl, if_pos hsp] at ha
    simp only [List.mem_cons] at ha ⊢
    rcases ha with h | h
    · tauto
    · have := ih a (by simpa using h)
      simp at this
      tauto
  | case4 c cs hsp ih =>
    intro a ha
    rw [stripUrl, if_neg hsp] at ha
    have := ih a ha
    have h2 := (List.dropWhile_suffix (fun d => !isSpaceCh d)).sublist.subset this
    simp only [List.mem_cons]
    tauto
  | case5 c cs h1 h2 ih =>
    intro a ha
    rw [stripUrl_cons_eq h1 h2] at ha
    simp only [List.mem_cons] at ha ⊢
    rcases ha with h | h
    · tauto
    · exact Or.inr (ih a h)
  | case6 => simp [stripUrl]

theorem mem_collapseWs : ∀ (l : List Char), ∀ c ∈ collapseWs l, c = ' ' ∨ c ∈ l := by
  intro l
  induction l using collapseWs.induct with
  | case1 => simp [collapseWs]
  | case2 c cs hsp ih =>
    intro a ha
    rw [collapseWs, if_pos hsp] at ha
    simp only [List.mem_cons] at ha
    rcases ha with h | h
    · exact Or.inl h
    · rcases ih a h with h2 | h2
      · exact Or.inl h2
      · have := (List.dropWhile_suffix isSpaceCh).sublist.subset h2
        simp only [List.mem_cons]
        tauto
  | case3 c cs hsp ih =>
    intro a ha
    rw [collapseWs, if_neg hsp] at ha
    simp only [List.mem_cons] at ha ⊢
    rcases ha with h | h
    · tauto
    · rcases ih a h with h2 | h2
      · exact Or.inl h2
      · tauto

theorem mem_stripEnds (l : List Char) : ∀ c ∈ stripEnds l, c ∈ l := by
  intro c hc
  unfold stripEnds at hc
  rw [List.mem_reverse] at hc
  have h1 := (List.dropWhile_suffix isSpaceCh).sublist.subset hc
  rw [List.mem_reverse] at h1
  exact (List.dropWhile_suffix isSpaceCh).sublist.subset h1

/-- Every whitespace character that `collapseWs` emits is a plain
space. -/
theorem collapseWs_space : ∀ (l : List Char), ∀ c ∈ collapseWs l,
    isSpaceCh c = true → c = ' ' := by
  intro l
  induction l using collapseWs.induct with
  | case1 => simp [collapseWs]
  | case2 c cs hsp ih =>
    intro a ha hs
    rw [collapseWs, if_pos hsp] at ha
    simp only [List.mem_cons] at ha
    rcases ha with h | h
    · exact h
    · exact ih a h hs
  | case3 c cs hsp ih =>
    intro a ha hs
    rw [collapseWs, if_neg hsp] at ha
    simp only [List.mem_cons] at ha
    rcases ha with h | h
    · rw [h] at hs
      exact absurd hs hsp
    · exact ih a h hs

theorem head?_dropWhile (p : Char → Bool) :
    ∀ (l : List Char) {c : Char}, (l.dropWhile p).head? = some c → p c = false := by
  intro l
  induction l with
  | nil => intro c h; simp [List.dropWhile] at h
  | cons a as ih =>
    intro c h
    rw [List.dropWhile_cons] at h
    split at h
    · exact ih h
    · rename_i hpa
      simp only [List.head?_cons, Option.some.injEq] at h
      cases h
      simp only [Bool.not_eq_true] at hpa
      exact hpa

theorem head?_collapseWs (l : List Char) :
    (collapseWs l).head? = l.head?.map (fun d => if isSpaceCh d then ' ' else d) := by
  cases l with
  | nil => simp [collapseWs]
  | cons c cs =>
    by_cases h : isSpaceCh c
    · rw [collapseWs, if_pos h]
      simp [h]
    · rw [collapseWs, if_neg h]
      simp [h]

/-- `collapseWs` output never contains two adjacent whitespace
characters. -/
theorem chain'_collapseWs : ∀ (l : List Char),
    List.Chain' (fun a b => ¬(isSpaceCh a = true ∧ isSpaceCh b = true)) (collapseWs l) := by
  intro l
  induction l using collapseWs.induct with
  | case1 => simp [collapseWs]
  | case2 c cs hsp ih =>
    rw [collapseWs, if_pos hsp]
    rw [List.chain'_cons']
    refine ⟨?_, ih⟩
    intro y hy
    rw [head?_collapseWs] at hy
    simp only [Option.mem_def, Option.map_eq_some'] at hy
    obtain ⟨d, hd, hdy⟩ := hy
    have hdp : isSpaceCh d = false := head?_dropWhile isSpaceCh cs hd
    intro hcon
    rw [← hdy] at hcon
    rw [if_neg (by simp [hdp])] at hcon
    rw [hdp] at hcon
    simp at hcon
  | case3 c cs hsp ih =>
    rw [collapseWs, if_neg hsp]
    rw [List.chain'_cons']
    refine ⟨?_, ih⟩
    intro y _
    intro hcon
    exact hsp hcon.1

/-- No two adjacent whitespace characters. -/
def noTwoWs (a b : Char) : Prop := ¬(isSpaceCh a = true ∧ isSpaceCh b = true)

theorem chain'_dropWhile {R : Char → Char → Prop} (p : Char → Bool) :
    ∀ (l : List Char), List.Chain' R l → List.Chain' R (l.dropWhile p) := by
  intro l
  induction l with
  | nil => simp
  | cons a as ih =>
    intro h
    rw [List.dropWhile_cons]
    split
    · exact ih h.tail
    · exact h

theorem stripEnds_append (l : List Char) :
    ∃ u, stripEnds l ++ u = l.dropWhile isSpaceCh := by
  have hs : ((l.dropWhile isSpaceCh).reverse.dropWhile isSpaceCh) <:+
      (l.dropWhile isSpaceCh).reverse := List.dropWhile_suffix isSpaceCh
  obtain ⟨t, ht⟩ := hs
  refine ⟨t.reverse, ?_⟩
  unfold stripEnds
  have h2 := congrArg List.reverse ht
  rw [List.reverse_append, List.reverse_reverse] at h2
  exact h2

theorem head?_stripEnds (l : List Char) {c : Char} (h : (stripEnds l).head? = some c) :
    isSpaceCh c = false := by
  obtain ⟨u, hu⟩ := stripEnds_append l
  cases hse : stripEnds l with
  | nil =>
    rw [hse] at h
    cases h
  | cons a rest =>
    rw [hse] at h hu
    simp only [List.head?_cons, Option.some.injEq] at h
    subst h
    exact head?_dropWhile isSpaceCh l (by rw [← hu]; rfl)

theorem dropWhile_eq_self_of_head (p : Char → Bool) (l : List Char)
    (h : ∀ c, l.head? = some c → p c = false) : l.dropWhile p = l := by
  cases l with
  | nil => rfl
  | cons a as =>
    rw [List.dropWhile_cons]
    have := h a rfl
    simp [this]

theorem stripEnds_idem (l : List Char) : stripEnds (stripEnds l) = stripEnds l := by
  have hA : (stripEnds l).dropWhile isSpaceCh = stripEnds l :=
    dropWhile_eq_self_of_head _ _ (fun c hc => head?_stripEnds l hc)
  show ((((stripEnds l).dropWhile isSpaceCh).reverse).dropWhile isSpaceCh).reverse = stripEnds l
  rw [hA]
  have hrev : (stripEnds l).reverse = ((l.dropWhile isSpaceCh).reverse).dropWhile isSpaceCh := by
    unfold stripEnds
    rw [List.reverse_reverse]
  rw [hrev, List.dropWhile_idempotent, ← hrev, List.reverse_reverse]

theorem chain'_reverse_noTwoWs (l : List Char) :
    List.Chain' noTwoWs l.reverse ↔ List.Chain' noTwoWs l := by
  rw [List.chain'_reverse]
  constructor
  · intro h
    exact h.imp (fun a b hab hcon => hab ⟨hcon.2, hcon.1⟩)
  · intro h
    exact h.imp (fun a b hab hcon => hab ⟨hcon.2, hcon.1⟩)

theorem chain'_stripEnds (l : List Char) (h : List.Chain' noTwoWs l) :
    List.Chain' noTwoWs (stripEnds l) := by
  unfold stripEnds
  refine (chain'_reverse_noTwoWs _).mpr ?_
  refine chain'_dropWhile _ _ ?_
  refine (chain'_reverse_noTwoWs _).mpr ?_
  exact chain'_dropWhile _ _ h

theorem lowerL_eq_self (l : List Char) (h : ∀ c ∈ l, toLowerC c = c) : lowerL l = l :=
  (List.map_congr_left h).trans (List.map_id l)

theorem stripHtml_eq_self : ∀ (l : List Char), (∀ c ∈ l, c ≠ '<') → stripHtml l = l := by
  intro l
  induction l with
  | nil => simp [stripHtml]
  | cons a as ih =>
    intro h
    rw [stripHtml, if_neg (h a (by simp))]
    rw [ih (fun c hc => h c (List.mem_cons_of_mem _ hc))]

theorem collapseWs_eq_self : ∀ (l : List Char),
    (∀ c ∈ l, isSpaceCh c = true → c = ' ') → List.Chain' noTwoWs l →
    collapseWs l = l := by
  intro l
  induction l using collapseWs.induct with
  | case1 =>
    intro _ _
    simp [collapseWs]
  | case2 c cs hsp ih =>
    intro h1 h2
    have hc : c = ' ' := h1 c (by simp) hsp
    have hcs : cs.dropWhile isSpaceCh = cs := by
      cases cs with
      | nil => rfl
      | cons d ds =>
        rw [List.dropWhile_cons]
        have hd : ¬ isSpaceCh d = true := by
          have hrel := (List.chain'_cons'.mp h2).1 d rfl
          intro hdd
          exact hrel ⟨hsp, hdd⟩
        rw [if_neg hd]
    rw [collapseWs, if_pos hsp, hcs]
    rw [hc]
    rw [hcs] at ih
    rw [ih (fun d hd hsd => h1 d (List.mem_cons_of_mem _ hd) hsd) h2.tail]
  | case3 c cs hsp ih =>
    intro h1 h2
    rw [collapseWs, if_neg hsp]
    rw [ih (fun d hd hsd => h1 d (List.mem_cons_of_mem _ hd) hsd) h2.tail]

/-- Every character of a cleaned string is in the allow-set and is
fixed by lowercasing. -/
theorem clean_text_chars (x : Str) :
    ∀ c ∈ clean_text x, allowedCh c = true ∧ toLowerC c = c := by
  intro c hc
  unfold clean_text at hc
  have h1 := mem_stripEnds _ c hc
  rcases mem_collapseWs _ c h1 with hsp | h2
  · subst hsp
    exact ⟨by decide, by decide⟩
  · have h3 := List.mem_filter.mp h2
    refine ⟨h3.2, ?_⟩
    have h4 := mem_stripUrl _ c h3.1
    have h5 := mem_stripHtml _ c h4
    obtain ⟨d, _, hdc⟩ := List.mem_map.mp h5
    rw [← hdc]
    exact toLowerC_idem d

/-- A cleaned string has only plain spaces as whitespace and never two
adjacent whitespace characters. -/
theorem clean_text_space_shape (x : Str) :
    (∀ c ∈ clean_text x, isSpaceCh c = true → c = ' ') ∧
    List.Chain' noTwoWs (clean_text x) := by
  constructor
  · intro c hc hs
    exact collapseWs_space _ c (mem_stripEnds _ c hc) hs
  · exact chain'_stripEnds _ (chain'_collapseWs _)

/-- When the URL pass fixes the cleaned string, a second `clean_text`
run fixes it as well. -/
theorem clean_text_idem_of_urlfixed (x : Str)
    (h : stripUrl (clean_text x) = clean_text x) :
    clean_text (clean_text x) = clean_text x := by
  have hch := clean_text_chars x
  have hsp := clean_text_space_shape x
  have h1 : lowerL (clean_text x) = clean_text x :=
    lowerL_eq_self _ (fun c hc => (hch c hc).2)
  have h2 : stripHtml (clean_text x) = clean_text x := by
    refine stripHtml_eq_self _ ?_
    intro c hc hceq
    have hall := (hch c hc).1
    rw [hceq] at hall
    exact absurd hall (by decide)
  have h4 : (clean_text x).filter allowedCh = clean_text x :=
    List.filter_eq_self.mpr (fun c hc => (hch c hc).1)
  have h5 : collapseWs (clean_text x) = clean_text x :=
    collapseWs_eq_self _ hsp.1 hsp.2
  have h6 : stripEnds (clean_text x) = clean_text x := by
    unfold clean_text
    exact stripEnds_idem _
  show stripEnds (collapseWs (List.filter allowedCh
    (stripUrl (stripHtml (lowerL (clean_text x)))))) = clean_text x
  rw [h1, h2, h, h4, h5, h6]

/-- C2 (amended).  `clean_text` is total: a non-string input and the
empty string both yield the empty string, and every string input yields
a defined string.  Idempotence `clean_text (clean_text x) = clean_text x`
holds for exactly those inputs whose cleaned form is a fixed point of
the URL-removal pass — in particular whenever the cleaned form contains
no `http...`/`www...` substring.  (It fails in general: see
`clean_text_not_idempotent`.) -/
theorem clean_text_total_and_conditional_idem :
    clean_text_py PyVal.nonString = [] ∧ clean_text [] = [] ∧
    ∀ x : Str, stripUrl (clean_text x) = clean_text x →
      clean_text (clean_text x) = clean_text x := by
  refine ⟨rfl, ?_, fun x h => clean_text_idem_of_urlfixed x h⟩
  simp [clean_text, lowerL, stripHtml, stripUrl, collapseWs, stripEnds, List.dropWhile]

/-- Witness: the amended idempotence applied to the concrete input
`"ab"`, whose cleaned form contains no URL substring. -/
theorem clean_text_total_and_conditional_idem_witness :
    clean_text (clean_text ('a' :: 'b' :: [])) = clean_text ('a' :: 'b' :: []) :=
  clean_text_total_and_conditional_idem.2.2 ('a' :: 'b' :: [])
    (by simp [clean_text, lowerL, toLowerC, stripHtml, findClose, stripUrl, collapseWs,
      stripEnds, allowedCh, isSpaceCh, List.dropWhile, List.filter])

/-- C2 counterexample: `clean_text` is NOT idempotent.  On the input
`"h#ttpx"`, the first run removes `#` (after the URL pass has already
run), leaving `"httpx"`; the second run then removes `"httpx"` as a URL
match, leaving the empty string. -/
theorem clean_text_not_idempotent :
    clean_text (clean_text ('h' :: '#' :: 't' :: 't' :: 'p' :: 'x' :: [])) ≠
      clean_text ('h' :: '#' :: 't' :: 't' :: 'p' :: 'x' :: []) := by
  have h1 : clean_text ('h' :: '#' :: 't' :: 't' :: 'p' :: 'x' :: []) =
      ('h' :: 't' :: 't' :: 'p' :: 'x' :: []) := by
    simp [clean_text, lowerL, toLowerC, stripHtml, findClose, stripUrl, collapseWs,
      stripEnds, allowedCh, isSpaceCh, List.dropWhile, List.filter]
  have h2 : clean_text ('h' :: 't' :: 't' :: 'p' :: 'x' :: []) = [] := by
    simp [clean_text, lowerL, toLowerC, stripHtml, findClose, stripUrl, collapseWs,
      stripEnds, allowedCh, isSpaceCh, List.dropWhile, List.filter]
  rw [h1, h2]
  simp

/-!
### `extract_article_text` (src/data_collection.py lines 16-52)

The network collaborators are modelled at their interface: `primary` is
the outcome of `Article(url).download()/.parse()` (`none` = an
exception was raised, `some t` = the parsed `article.text`), and
`fallback` the outcome of `requests.get` (`none` = a request exception,
`some (code, body)` = a response with status `code` whose HTML, after
the BeautifulSoup strip/normalize block, reads as `body`).  Modelling
exceptions as environment outcomes makes the embedded function total:
the Python function returns a string on every path and never lets an
exception escape. -/

structure ExtractEnv where
  newspaperAvailable : Bool
  primary : Option Str
  fallback : Option (Nat × Str)

/-- Method 1 (lines 23-32): the newspaper3k result is accepted only
when it is truthy and strictly longer than 100 characters. -/
def primary_accepted (env : ExtractEnv) : Option Str :=
  if env.newspaperAvailable then
    match env.primary with
    | some t => if t ≠ [] ∧ t.length > 100 then some t else none
    | none => none
  else none

/-- Method 2 (lines 35-50): the raw fetch contributes its text only on
a 200 response; a non-200 response or an exception falls through to the
final `return ""`. -/
def fallback_text (env : ExtractEnv) : Str :=
  match env.fallback with
  | some cb => if cb.1 = 200 then cb.2 else []
  | none => []

/-- `extract_article_text` (lines 16-52): first accepted method wins,
else the empty string. -/
def extract_article_text (env : ExtractEnv) : Str :=
  match primary_accepted env with
  | some t => t
  | none => fallback_text env

/-- C5.  A primary (library-based) extraction result of 100 characters
or fewer — hence in particular a 40-character string — is not accepted:
`extract_article_text` falls through to the raw-page fetch method
rather than returning it; a primary result strictly longer than 100
characters is returned directly. -/
theorem extract_article_text_threshold (env : ExtractEnv) (t : Str)
    (havail : env.newspaperAvailable = true) (hp : env.primary = some t) :
    (t.length ≤ 100 → extract_article_text env = fallback_text env) ∧
    (t.length > 100 → extract_article_text env = t) := by
  constructor
  · intro hlen
    have hcond : ¬(t ≠ [] ∧ t.length > 100) := by
      intro hc
      omega
    unfold extract_article_text primary_accepted
    rw [havail, if_pos rfl, hp]
    show (match (if t ≠ [] ∧ t.length > 100 then some t else none) with
      | some t => t
      | none => fallback_text env) = fallback_text env
    rw [if_neg hcond]
  · intro hlen
    have htne : t ≠ [] := by
      intro hc
      rw [hc] at hlen
      simp at hlen
    unfold extract_article_text primary_accepted
    rw [havail, if_pos rfl, hp]
    show (match (if t ≠ [] ∧ t.length > 100 then some t else none) with
      | some t => t
      | none => fallback_text env) = t
    rw [if_pos ⟨htne, hlen⟩]

/-- Witness for C5: a 40-character primary result is rejected and the
extractor returns the fallback method's result instead. -/
theorem extract_article_text_threshold_witness :
    extract_article_text
        ⟨true, some (List.replicate 40 'a'), some (200, 'b' :: [])⟩ =
      fallback_text ⟨true, some (List.replicate 40 'a'), some (200, 'b' :: [])⟩ :=
  (extract_article_text_threshold _ (List.replicate 40 'a') rfl rfl).1 (by simp)

/-- C6.  `extract_article_text` always returns a string (it is total
over every environment outcome, exceptions included) and when both
methods fail — the primary is unavailable, raises, or is too short, and
the raw fetch raises or returns a non-200 status — the result is the
empty string. -/
theorem extract_article_text_absorbs_failures (env : ExtractEnv)
    (h1 : primary_accepted env = none)
    (h2 : env.fallback = none ∨ ∀ cb, env.fallback = some cb → cb.1 ≠ 200) :
    extract_article_text env = [] := by
  unfold extract_article_text
  rw [h1]
  show fallback_text env = []
  unfold fallback_text
  rcases h2 with h | h
  · rw [h]
  · rcases hf : env.fallback with _ | cb
    · rfl
    · show (if cb.1 = 200 then cb.2 else []) = []
      rw [if_neg (h cb hf)]

/-- Witness for C6: nothing is available and both methods fail. -/
theorem extract_article_text_absorbs_failures_witness :
    extract_article_text ⟨false, none, none⟩ = [] :=
  extract_article_text_absorbs_failures ⟨false, none, none⟩ rfl (Or.inl rfl)

/-!
### Article construction in the collectors
(src/news_collector.py lines 68-80 and 148-159,
src/data_collection.py lines 110-124)
-/

/-- A field of a JSON object as parsed into a Python dict: missing key,
explicit `null` (Python `None`), or a string. -/
inductive JField where
  | absent
  | null
  | str (s : Str)
deriving DecidableEq

/-- `item.get(key, "")` on a parsed-JSON dict: the default fires only
for a missing key; a stored `null` comes back as Python `None`. -/
def jGet : JField → Option Str
  | .absent => some []
  | .null => none
  | .str s => some s

/-- `item.get(key, default)` with a non-empty default (used for
`source.name` with default `"Unknown"`). -/
def jGetD (f : JField) (d : Str) : Option Str :=
  match f with
  | .absent => some d
  | .null => none
  | .str s => some s

/-- Python truthiness of a string-or-None value. -/
def pyTruthy : Option Str → Bool
  | none => false
  | some s => !s.isEmpty

/-- Python's `a or b` on string-or-None values. -/
def pyOr (a b : Option Str) : Option Str := if pyTruthy a then a else b

/-- One NewsAPI response item, with the fields the collectors read.
JSON `null` values are real in NewsAPI responses (`description` and
`content` in particular). -/
structure NewsItem where
  title : JField
  publishedAt : JField
  sourceName : JField
  url : JField
  description : JField
  content : JField
deriving DecidableEq

/-- The normalized article record a collector appends (spec §3 calls
the query/feed provenance field `collection_query_or_source`; the
dicts in the source use the key `collection_query` on the API path and
`collection_source` on the feed path). -/
structure ArticleRec where
  title : Option Str
  published : Option Str
  source : Option Str
  url : Option Str
  text : Option Str
  description : Option Str
  collection_method : Str
  collection_query_or_source : Str
  collected_at : Str
deriving DecidableEq

/-- `collect_from_newsapi`'s per-item dict
(src/news_collector.py lines 68-80): `text` is
`item.get("content", "") or item.get("description", "")`. -/
def mkNewsapiArticle (item : NewsItem) (query : Str) (now : Str) : ArticleRec :=
  { title := jGet item.title,
    published := jGet item.publishedAt,
    source := jGetD item.sourceName "Unknown".toList,
    url := jGet item.url,
    text := pyOr (jGet item.content) (jGet item.description),
    description := jGet item.description,
    collection_method := "newsapi".toList,
    collection_query_or_source := query,
    collected_at := now }

/-- `fetch_news_paginated`'s per-item dict
(src/data_collection.py lines 110-124): `extracted` is the string
returned by `extract_article_text` (always a string, C6); when it is
falsy or shorter than 50 characters the provider description is used
instead.  The source indexes `item['title']`, `item['publishedAt']`,
`item['source']['name']`, `item['url']` directly — NewsAPI always
supplies these keys, on which `jGet` agrees with direct indexing. -/
def mkPaginatedArticle (item : NewsItem) (query : Str) (extracted : Str) : ArticleRec :=
  { title := jGet item.title,
    published := jGet item.publishedAt,
    source := jGetD item.sourceName "Unknown".toList,
    url := jGet item.url,
    text := if extracted = [] ∨ extracted.length < 50
      then jGet item.description else some extracted,
    description := jGet item.description,
    collection_method := "newsapi".toList,
    collection_query_or_source := query,
    collected_at := [] }

/-- One parsed feed entry as `collect_from_rss_feed` reads it:
`contentVal` is `entry.content[0].value` when `entry` has a non-empty
`content` list, `summary`/`descriptionAttr` model the `hasattr`
checks.  feedparser delivers strings, never `None`. -/
structure FeedEntry where
  title : Str
  published : Str
  link : Str
  summaryGet : Str
  contentVal : Option Str
  summaryAttr : Option Str
  descriptionAttr : Option Str
deriving DecidableEq

/-- `text.replace(pat, " ")`: replace every non-overlapping occurrence
of `pat` (a non-empty pattern, passed as head and tail) left to
right. -/
def replaceAll (p : Char) (ps : List Char) : List Char → List Char
  | [] => []
  | c :: cs =>
    if startsWithL (p :: ps) (c :: cs) then ' ' :: replaceAll p ps (cs.drop ps.length)
    else c :: replaceAll p ps cs
termination_by l => l.length
decreasing_by
  · simp
    have := cs.length_drop ps.length
    omega
  · simp

/-- The four tag replacements of src/news_collector.py lines 144-146,
in source order. -/
def replaceTags (t : Str) : Str :=
  replaceAll '<' ("br/>".toList)
    (replaceAll '<' ("br>".toList)
      (replaceAll '<' ("/p>".toList)
        (replaceAll '<' ("p>".toList) t)))

/-- The inline-text selection of `collect_from_rss_feed`
(src/news_collector.py lines 135-146): full content, else summary,
else description, else empty; non-empty text gets the tag
replacements. -/
def feedEntryText (e : FeedEntry) : Str :=
  let t :=
    match e.contentVal with
    | some v => v
    | none =>
      match e.summaryAttr with
      | some s => s
      | none =>
        match e.descriptionAttr with
        | some d => d
        | none => []
  if t = [] then t else replaceTags t

/-- `collect_from_rss_feed`'s per-entry dict
(src/news_collector.py lines 148-159). -/
def mkFeedArticle (name : Str) (e : FeedEntry) (now : Str) : ArticleRec :=
  { title := some e.title,
    published := some e.published,
    source := some name,
    url := some e.link,
    text := some (feedEntryText e),
    description := some e.summaryGet,
    collection_method := "rss".toList,
    collection_query_or_source := name,
    collected_at := now }

/-- `collect_from_rss_feed` (src/news_collector.py lines 114-166):
a feed-level parse error (`parsed = none`) is caught and yields zero
articles; otherwise the first `maxPerFeed` entries are normalized. -/
def collect_from_rss_feed (name : Str) (parsed : Option (List FeedEntry))
    (maxPerFeed : Nat) (now : Str) : List ArticleRec :=
  match parsed with
  | none => []
  | some entries => (entries.take maxPerFeed).map (fun e => mkFeedArticle name e now)

/-- `collect_from_newsapi` (src/news_collector.py lines 31-89): with a
valid key and an ok response the items are normalized; a non-ok
response, a request error, or a missing key yields zero articles. -/
def collect_from_newsapi (query : Str) (items : Option (List NewsItem))
    (now : Str) : List ArticleRec :=
  match items with
  | none => []
  | some its => its.map (fun item => mkNewsapiArticle item query now)

/-- C7 counterexample: a NewsAPI item whose `content` key is missing
and whose `description` is JSON `null` produces an article whose `text`
field is Python `None` — `item.get("content", "") or
item.get("description", "")` evaluates to `"" or None`, which is
`None`. -/
theorem collector_text_null_on_null_description :
    (mkNewsapiArticle
        ⟨JField.str ('T' :: []), JField.str [], JField.str [],
          JField.str ('u' :: []), JField.null, JField.absent⟩ [] []).text = none := rfl

/-- C7 (amended).  Provided the provider's `description` field is not
an explicit JSON `null`, every article built by the NewsAPI collector
and by the paginated fetcher has a non-null `text`: absent extraction
or falsy content — including a JSON-`null` content, since
`None or desc` evaluates to `desc` — degrades to the description, and
an absent description key degrades to the empty string.  Only an
explicitly null description value propagates to a null `text`. -/
theorem collector_text_nonnull_of_nonnull_description (item : NewsItem)
    (query now : Str) (extracted : Str) (hd : item.description ≠ JField.null) :
    (mkNewsapiArticle item query now).text ≠ none ∧
    (mkPaginatedArticle item query extracted).text ≠ none := by
  have hdg : jGet item.description ≠ none := by
    cases hx : item.description
    · simp [jGet]
    · exact absurd hx hd
    · simp [jGet]
  constructor
  · show pyOr (jGet item.content) (jGet item.description) ≠ none
    unfold pyOr
    split
    · rename_i ht
      intro hc
      rw [hc] at ht
      simp [pyTruthy] at ht
    · exact hdg
  · show (if extracted = [] ∨ extracted.length < 50
        then jGet item.description else some extracted) ≠ none
    split
    · exact hdg
    · simp

/-- Witness for C7: an item whose `content` is JSON `null` but whose
`description` is a string — `None or desc` yields the description, so
`text` is still non-null. -/
theorem collector_text_nonnull_of_nonnull_description_witness :
    (mkNewsapiArticle
        ⟨JField.str [], JField.str [], JField.str [], JField.str [],
          JField.str ('d' :: []), JField.null⟩ [] []).text ≠ none ∧
    (mkPaginatedArticle
        ⟨JField.str [], JField.str [], JField.str [], JField.str [],
          JField.str ('d' :: []), JField.null⟩ [] []).text ≠ none :=
  collector_text_nonnull_of_nonnull_description _ [] [] []
    (by simp)

/-- C8 counterexample: on concrete one-entry inputs, the feed collector
returns an article whose `collection_method` is `"rss"` and the API
collector one whose `collection_method` is `"newsapi"` — neither value
is a member of the claimed enumeration `{"api", "feed"}`. -/
theorem collection_method_not_api_feed :
    (collect_from_rss_feed ('f' :: []) (some [⟨[], [], [], [], none, none, none⟩])
        20 []).map (fun a => a.collection_method) = ["rss".toList] ∧
    (collect_from_newsapi ('q' :: [])
        (some [⟨JField.str [], JField.str [], JField.str [], JField.str [],
          JField.str [], JField.str []⟩]) []).map
        (fun a => a.collection_method) = ["newsapi".toList] ∧
    "rss".toList ≠ "api".toList ∧ "rss".toList ≠ "feed".toList ∧
    "newsapi".toList ≠ "api".toList ∧ "newsapi".toList ≠ "feed".toList := by
  refine ⟨rfl, rfl, ?_, ?_, ?_, ?_⟩
  all_goals intro h
  all_goals cases h

/-- C8 (amended).  `collection_method` is drawn from the two-element
enumeration `{"newsapi", "rss"}`: every article built on the API path
carries `"newsapi"` and every article built on the feed path carries
`"rss"`, and hence so does every article returned by
`collect_from_newsapi` and `collect_from_rss_feed`. -/
theorem collection_method_enum_newsapi_rss :
    (∀ item query now, (mkNewsapiArticle item query now).collection_method =
        "newsapi".toList) ∧
    (∀ name e now, (mkFeedArticle name e now).collection_method = "rss".toList) ∧
    (∀ query items now, (collect_from_newsapi query items now).all
        (fun a => a.collection_method == "newsapi".toList) = true) ∧
    (∀ name parsed maxPerFeed now, (collect_from_rss_feed name parsed maxPerFeed now).all
        (fun a => a.collection_method == "rss".toList) = true) := by
  refine ⟨fun _ _ _ => rfl, fun _ _ _ => rfl, ?_, ?_⟩
  · intro query items now
    cases items with
    | none => rfl
    | some its =>
      simp only [collect_from_newsapi, List.all_eq_true, List.mem_map]
      rintro a ⟨item, _, rfl⟩
      simp [mkNewsapiArticle]
  · intro name parsed maxPerFeed now
    cases parsed with
    | none => rfl
    | some entries =>
      simp only [collect_from_rss_feed, List.all_eq_true, List.mem_map]
      rintro a ⟨e, _, rfl⟩
      simp [mkFeedArticle]

/-!
### `save_articles` (src/news_collector.py lines 186-216)
-/

/-- `df.drop_duplicates(subset=[key], keep="first")`: keep each row
whose key value has not occurred in an earlier row.  (pandas treats NaN
keys as equal to each other, which the `none = none` comparison
mirrors.) -/
def dedupBy (key : ArticleRec → Option Str) : List ArticleRec → List ArticleRec
  | [] => []
  | x :: xs => x :: dedupBy key (xs.filter (fun y => !(key y == key x)))
termination_by l => l.length
decreasing_by
  simp
  have := List.length_filter_le (fun y => !(key y == key x)) xs
  omega

/-- The dedup-key selection of lines 203-206: by `url` when the `url`
column exists (some record supplied the key), else by `title` when that
column exists, else no deduplication. -/
def dedup_articles (articles : List ArticleRec) : List ArticleRec :=
  if articles.any (fun a => a.url.isSome) then dedupBy (fun a => a.url) articles
  else if articles.any (fun a => a.title.isSome) then dedupBy (fun a => a.title) articles
  else articles

/-- A filesystem operation performed by `save_articles`:
`os.makedirs(..., exist_ok=True)` or the attempted `df.to_csv`. -/
inductive FsOp where
  | mkdir
  | writeAttempt (rows : List ArticleRec)
deriving DecidableEq

/-- `save_articles` (lines 186-216): an empty input returns `False`
before any filesystem call; otherwise the deduplicated frame is
written after the directory is ensured, and a write error (environment
flag `writeOk = false`) is caught and reported as `False`. -/
def save_articles (writeOk : Bool) (articles : List ArticleRec) : Bool × List FsOp :=
  if articles = [] then (false, [])
  else (writeOk, [FsOp.mkdir, FsOp.writeAttempt (dedup_articles articles)])

theorem dedupBy_sublist (key : ArticleRec → Option Str) :
    ∀ l, (dedupBy key l).Sublist l := by
  intro l
  induction l using dedupBy.induct key with
  | case1 => simp [dedupBy]
  | case2 x xs ih =>
    rw [dedupBy]
    exact (ih.trans (List.filter_sublist xs)).cons₂ x

theorem find?_filter_of_imp (p q : ArticleRec → Bool)
    (h : ∀ a, p a = true → q a = true) :
    ∀ l : List ArticleRec, (l.filter q).find? p = l.find? p := by
  intro l
  induction l with
  | nil => rfl
  | cons x xs ih =>
    by_cases hp : p x = true
    · rw [List.filter_cons, if_pos (h x hp)]
      rw [List.find?_cons_of_pos _ hp, List.find?_cons_of_pos _ hp]
    · rw [List.find?_cons_of_neg _ hp, List.filter_cons]
      split
      · rw [List.find?_cons_of_neg _ hp]
        exact ih
      · exact ih

theorem dedupBy_filter_key (key : ArticleRec → Option Str) (k : Option Str) :
    ∀ l, (dedupBy key l).filter (fun a => key a == k) =
      (l.find? (fun a => key a == k)).toList := by
  intro l
  induction l using dedupBy.induct key with
  | case1 => simp [dedupBy]
  | case2 x xs ih =>
    rw [dedupBy]
    by_cases hx : (key x == k) = true
    · have hk : key x = k := by
        exact eq_of_beq hx
      rw [List.filter_cons, if_pos hx]
      simp only [List.find?_cons, hx]
      have hrest : (dedupBy key (xs.filter (fun y => !(key y == key x)))).filter
          (fun a => key a == k) = [] := by
        rw [List.filter_eq_nil_iff]
        intro a ha
        have hmem := (dedupBy_sublist key _).subset ha
        have hq := List.of_mem_filter hmem
        simp only [Bool.not_eq_true', beq_eq_false_iff_ne] at hq
        simp only [beq_iff_eq]
        rw [hk] at hq
        exact hq
      rw [hrest]
      rfl
    · rw [List.filter_cons, if_neg hx]
      have hx2 : (key x == k) = false := by
        simpa using hx
      simp only [List.find?_cons, hx2]
      rw [ih]
      rw [find?_filter_of_imp _ _ ?_]
      intro a hpa
      simp only [beq_iff_eq] at hpa
      simp only [Bool.not_eq_true', beq_eq_false_iff_ne]
      rw [hpa]
      intro hcon
      rw [hcon] at hx
      simp at hx

/-- C3.  For every input list containing two records with the same
`url` (at positions `i < j`) and different `title`, `save_articles`
persists the deduplicated set in which exactly one record with that
`url` survives, namely the first-encountered one
(`List.find?` returns the first match), the dedup key is `url` because
the `url` column is present, and deduplication is stable and
order-preserving (the output is a sublist of the input). -/
theorem save_articles_dedup_first_by_url (writeOk : Bool) (l : List ArticleRec)
    (i j : Nat) (hij : i < j) (hj : j < l.length) (u : Str)
    (hui : (l.get ⟨i, Nat.lt_trans hij hj⟩).url = some u)
    (huj : (l.get ⟨j, hj⟩).url = some u)
    (htitle : (l.get ⟨i, Nat.lt_trans hij hj⟩).title ≠ (l.get ⟨j, hj⟩).title) :
    save_articles writeOk l =
      (writeOk, [FsOp.mkdir, FsOp.writeAttempt (dedup_articles l)]) ∧
    dedup_articles l = dedupBy (fun a => a.url) l ∧
    (dedup_articles l).filter (fun a => a.url == some u) =
      (l.find? (fun a => a.url == some u)).toList ∧
    (l.find? (fun a => a.url == some u)).isSome = true ∧
    (dedup_articles l).Sublist l := by
  have hne : l ≠ [] := by
    intro hc
    rw [hc] at hj
    simp at hj
  have hmem : l.get ⟨i, Nat.lt_trans hij hj⟩ ∈ l := l.get_mem _ _
  have hurl : l.any (fun a => a.url.isSome) = true := by
    rw [List.any_eq_true]
    exact ⟨_, hmem, by rw [hui]; rfl⟩
  have hd : dedup_articles l = dedupBy (fun a => a.url) l := by
    unfold dedup_articles
    rw [if_pos hurl]
  refine ⟨?_, hd, ?_, ?_, ?_⟩
  · unfold save_articles
    rw [if_neg hne]
  · rw [hd]
    exact dedupBy_filter_key _ _ l
  · rw [List.find?_isSome]
    refine ⟨_, hmem, ?_⟩
    rw [hui]
    simp
  · rw [hd]
    exact dedupBy_sublist _ l

/-- Two concrete articles sharing a `url` but differing in `title`. -/
def cexArticleA : ArticleRec :=
  { title := some ('A' :: []), published := some [], source := some [],
    url := some ('u' :: []), text := some [], description := some [],
    collection_method := [], collection_query_or_source := [], collected_at := [] }

/-- Second concrete article with the same `url` as `cexArticleA`. -/
def cexArticleB : ArticleRec :=
  { title := some ('B' :: []), published := some [], source := some [],
    url := some ('u' :: []), text := some [], description := some [],
    collection_method := [], collection_query_or_source := [], collected_at := [] }

/-- Witness for C3: on the two-record list, exactly the
first-encountered record with the shared `url` survives. -/
theorem save_articles_dedup_first_by_url_witness :
    (dedup_articles [cexArticleA, cexArticleB]).filter
        (fun a => a.url == some ('u' :: [])) =
      (([cexArticleA, cexArticleB]).find? (fun a => a.url == some ('u' :: []))).toList :=
  (save_articles_dedup_first_by_url true [cexArticleA, cexArticleB] 0 1
    (by decide) (by simp) ('u' :: []) rfl rfl (by decide)).2.2.1

/-- C9.  For the empty input list, `save_articles` returns failure and
performs no filesystem operation: no directory is created and no write
is attempted. -/
theorem save_articles_empty_no_fs (writeOk : Bool) :
    save_articles writeOk [] = (false, []) := rfl

/-!
### `fetch_news_paginated` (src/data_collection.py lines 54-138)

The provider is modelled as a function from the page number to the
response the `requests.get` + `.json()` pair yields for that page:
`ok` is whether `data.get('status') == 'ok'` (a request exception in
the `try` block breaks the loop exactly as a non-ok status does and is
folded into `ok = false`), `totalResults` is `data.get('totalResults',
0)`, and `articles` the page's item batch.  The result records, in
order, the pages actually requested and the accumulated items; per-item
article construction (count-preserving) is modelled by
`mkPaginatedArticle`. -/

structure PageResp (α : Type) where
  ok : Bool
  totalResults : Nat
  articles : List α
deriving DecidableEq

/-- The `while len(all_articles) < total_articles` loop of lines
73-138: request the page; stop on a non-ok response or an empty batch;
append items up to the requested count; stop when the incremented page
counter exceeds `totalResults // page_size + 1`. -/
def fetchLoop {α : Type} (provider : Nat → PageResp α) (total pageSize : Nat) :
    Nat → List α → List Nat × List α
  | page, acc =>
    if acc.length < total then
      if (provider page).ok = false then ([page], acc)
      else if (provider page).articles.isEmpty = true then ([page], acc)
      else if page + 1 > (provider page).totalResults / pageSize + 1 then
        ([page], acc ++ (provider page).articles.take (total - acc.length))
      else
        ((page :: (fetchLoop provider total pageSize (page + 1)
            (acc ++ (provider page).articles.take (total - acc.length))).1),
          (fetchLoop provider total pageSize (page + 1)
            (acc ++ (provider page).articles.take (total - acc.length))).2)
    else ([], acc)
termination_by page acc => total - acc.length
decreasing_by
  all_goals
    rename_i hlt _ hbatch _
    have h1 : (provider page).articles.length ≥ 1 := by
      cases hb : (provider page).articles with
      | nil =>
        rw [hb] at hbatch
        simp at hbatch
      | cons a as => simp
    simp [List.length_take]
    omega

/-- `fetch_news_paginated(query, total_articles, days_back)`: the page
size is `min(100, total_articles)` (line 67) and pagination starts at
page 1 with an empty accumulator. -/
def fetch_news_paginated {α : Type} (provider : Nat → PageResp α)
    (total_articles : Nat) : List Nat × List α :=
  fetchLoop provider total_articles (min 100 total_articles) 1 []

/-- Pagination always stops for one of the loop's reasons: the
requested count was reached, or some requested page returned an error
status, an empty batch, or pushed the page counter past the computed
last page. -/
theorem fetchLoop_stops {α : Type} (provider : Nat → PageResp α) (total pageSize : Nat) :
    ∀ (n page : Nat) (acc : List α), total - acc.length ≤ n →
      (fetchLoop provider total pageSize page acc).2.length ≥ total ∨
      ∃ p ∈ (fetchLoop provider total pageSize page acc).1,
        (provider p).ok = false ∨ (provider p).articles.isEmpty = true ∨
        p + 1 > (provider p).totalResults / pageSize + 1 := by
  intro n
  induction n with
  | zero =>
    intro page acc hle
    rw [fetchLoop]
    rw [if_neg (by omega)]
    left
    show acc.length ≥ total
    omega
  | succ n ih =>
    intro page acc hle
    by_cases hlt : acc.length < total
    · rw [fetchLoop, if_pos hlt]
      by_cases hok : (provider page).ok = false
      · rw [if_pos hok]
        right
        exact ⟨page, by simp, Or.inl hok⟩
      · rw [if_neg hok]
        by_cases hempty : (provider page).articles.isEmpty = true
        · rw [if_pos hempty]
          right
          exact ⟨page, by simp, Or.inr (Or.inl hempty)⟩
        · rw [if_neg hempty]
          by_cases hlast : page + 1 > (provider page).totalResults / pageSize + 1
          · rw [if_pos hlast]
            right
            exact ⟨page, by simp, Or.inr (Or.inr hlast)⟩
          · rw [if_neg hlast]
            have hlen : (provider page).articles.length ≥ 1 := by
              cases hb : (provider page).articles with
              | nil =>
                rw [hb] at hempty
                simp at hempty
              | cons a as => simp
            have hfuel : total -
                (acc ++ (provider page).articles.take (total - acc.length)).length ≤ n := by
              simp [List.length_take]
              omega
            rcases ih (page + 1)
                (acc ++ (provider page).articles.take (total - acc.length)) hfuel with
              h | ⟨p, hp, hcond⟩
            · left
              exact h
            · right
              exact ⟨p, List.mem_cons_of_mem _ hp, hcond⟩
    · rw [fetchLoop, if_neg hlt]
      left
      show acc.length ≥ total
      omega

/-- A provider that reports `totalResults = 30` and serves pages of 20
items each (the scenario of the pagination-termination property). -/
def provider20 : Nat → PageResp Nat := fun _ => ⟨true, 30, List.replicate 20 0⟩

/-- C4 counterexample: a collector asked for 50 articles computes
`page_size = min(100, 50) = 50`, so against a provider reporting
`totalResults = 30` (serving 20-item pages) the computed last page is
`30 // 50 + 1 = 1`: the loop stops after requesting page 1 and never
requests page 2 — not, as the claim states, after requesting page 2. -/
theorem fetch_news_paginated_not_two_pages :
    (fetch_news_paginated provider20 50).1 = [1] ∧
    2 ∉ (fetch_news_paginated provider20 50).1 := by
  have h : (fetch_news_paginated provider20 50).1 = [1] := by
    rw [fetch_news_paginated, fetchLoop]
    norm_num [provider20]
  refine ⟨h, ?_⟩
  rw [h]
  simp

/-- C4 (amended).  A `fetch_news_paginated` run asked for 50 articles
against a provider reporting `totalResults = 30` with 20-item pages
stops after requesting page 1 (its page size is `min(100, 50) = 50`,
making the computed last page 1) and in particular never requests page
3; in general pagination stops exactly when the requested count is
reached or some requested page returns an error status, returns zero
items, or pushes the page counter past the computed last page
(`totalResults // page_size + 1`). -/
theorem fetch_news_paginated_stops :
    (fetch_news_paginated provider20 50).1 = [1] ∧
    ∀ (α : Type) (provider : Nat → PageResp α) (total : Nat),
      (fetch_news_paginated provider total).2.length ≥ total ∨
      ∃ p ∈ (fetch_news_paginated provider total).1,
        (provider p).ok = false ∨ (provider p).articles.isEmpty = true ∨
        p + 1 > (provider p).totalResults / (min 100 total) + 1 := by
  constructor
  · rw [fetch_news_paginated, fetchLoop]
    norm_num [provider20]
  · intro α provider total
    exact fetchLoop_stops provider total _ total 1 [] (by simp)

/-!
### `fetch_from_rss` (src/rss_collector.py lines 8-79)
-/

/-- One feed entry as `fetch_from_rss` reads it (feedparser delivers
strings). -/
structure RssEntry where
  title : Str
  published : Str
  link : Str
  description : Str
  summary : Str
deriving DecidableEq

/-- The per-entry article of `fetch_from_rss`
(src/rss_collector.py lines 36-63).  `fetched` is the outcome of the
full-page fetch block: `some page` is the page text after the
BeautifulSoup strip/normalize (an excluded collaborator), `none` a
raised exception (the bare `except`).  On success `text` is the page
text truncated to its first 10000 characters; on failure `text` is
replaced by the entry's description. -/
structure RssArticle where
  title : Str
  published : Str
  source : Str
  url : Str
  text : Str
  description : Str
  summary : Str
deriving DecidableEq

def fetch_from_rss_article (sourceTitle : Str) (e : RssEntry)
    (fetched : Option Str) : RssArticle :=
  { title := e.title,
    published := e.published,
    source := sourceTitle,
    url := e.link,
    text :=
      match fetched with
      | some page => page.take 10000
      | none => e.description,
    description := e.description,
    summary := e.summary }

/-- C10 counterexample: when the full-page fetch fails, `text` is the
entry's description, which is not truncated — a 10001-character
description yields an article whose `text` exceeds 10000 characters. -/
theorem rss_text_exceeds_limit_on_fallback :
    (fetch_from_rss_article []
        ⟨[], [], [], List.replicate 10001 'a', []⟩ none).text.length > 10000 := by
  show (List.replicate 10001 'a').length > 10000
  rw [List.length_replicate]
  omega

/-- C10 (amended).  Every article produced by the RSS collector's
full-page fetch path whose fetch succeeds has a `text` of at most
10000 characters — the page text truncated to its first 10000
characters; on fetch failure `text` is replaced by the entry's
description (with no length bound). -/
theorem rss_text_truncation (sourceTitle : Str) (e : RssEntry) (page : Str) :
    (fetch_from_rss_article sourceTitle e (some page)).text = page.take 10000 ∧
    (fetch_from_rss_article sourceTitle e (some page)).text.length ≤ 10000 ∧
    (fetch_from_rss_article sourceTitle e none).text = e.description := by
  refine ⟨rfl, ?_, rfl⟩
  show (page.take 10000).length ≤ 10000
  simp [List.length_take]
